import Mathlib

/- A shallow embedding of the krafscms static site generator (krafscms.py).

   Python strings are modelled as `List Char` (over the ASCII fragment that
   the repository's inputs use); Python dicts as association lists with
   Python's insert-or-update semantics (`dictInsert`); the filesystem state
   seen by the build walker as an association list from target paths to file
   records; fallible operations return `Except Err`.

   `str.format` is modelled for the simple named-placeholder fragment the
   templates use (a field is an identifier between braces, `{{`/`}}` are
   literal braces); the `markdown.markdown` collaborator is an opaque
   function parameter, as the spec treats it. -/

set_option autoImplicit false

namespace Krafscms

/-- Convert a Lean string literal to the `List Char` string model. -/
def chars (s : String) : List Char := s.data

/-- Python regex `\s` (ASCII fragment), as used by `\s*` in the parsing
regexes and nowhere else. -/
def isPySpace (c : Char) : Bool :=
  decide (c = ' ' ∨ c = '\t' ∨ c = '\n' ∨ c = '\r' ∨ c = '\x0B' ∨ c = '\x0C')

/-- Python regex `\w` (ASCII fragment): letters, digits, underscore. -/
def isWordChar (c : Char) : Bool :=
  c.isAlphanum || decide (c = '_')

/-- A nonempty `\w+` token. -/
def wordTok (s : List Char) : Bool :=
  !s.isEmpty && s.all isWordChar

/-- Association-list lookup: first binding for the key, i.e. Python dict
lookup for lists that arose from a dict (no duplicate keys). -/
def lookupA {α β : Type} [DecidableEq α] (m : List (α × β)) (k : α) : Option β :=
  match m with
  | [] => none
  | p :: rest => if p.1 = k then some p.2 else lookupA rest k

/-- Key membership in an association list (`k in d` for a Python dict). -/
def containsKey {α β : Type} [DecidableEq α] (m : List (α × β)) (k : α) : Bool :=
  match m with
  | [] => false
  | p :: rest => if p.1 = k then true else containsKey rest k

/-- Python dict assignment `d[k] = v`: overwrite in place if the key exists
(keeping its insertion position), otherwise append. -/
def dictInsert {α β : Type} [DecidableEq α] (m : List (α × β)) (k : α) (v : β) :
    List (α × β) :=
  if containsKey m k then m.map (fun p => if p.1 = k then (p.1, v) else p)
  else m ++ [(k, v)]

/-- `collections.ChainMap(m1, m2)`: lookups try `m1` first, then `m2`;
realised as a single association list with the same lookup behaviour. -/
def chainMap {α β : Type} [DecidableEq α] (m1 m2 : List (α × β)) : List (α × β) :=
  m1 ++ m2.filter (fun p => !containsKey m1 p.1)

/-- `"../" * depth` (Python string repetition). -/
def pyRepeat (s : List Char) : Nat → List Char
  | 0 => []
  | n + 1 => s ++ pyRepeat s n

/-- `strip_quotes` from krafscms.py: if the string starts and ends with a
double quote, return `string[1:-1]`, else the string unchanged.  (Python's
`'"'.startswith('"') and '"'.endswith('"')` both hold for the one-character
string, giving `""`; `drop 1` then `dropLast` reproduces that.) -/
def strip_quotes (string : List Char) : List Char :=
  if string.head? = some '"' ∧ string.getLast? = some '"' then (string.drop 1).dropLast
  else string

/-- Scan the interior of a double-quoted token: the regex `".*?"` (no
DOTALL) ends at the nearest following quote and its dot cannot cross a
newline; returns the interior and the remainder after the closing quote. -/
def scanQuoted : List Char → Option (List Char × List Char)
  | [] => none
  | c :: rest =>
    if c = '"' then some ([], rest)
    else if c = '\n' then none
    else
      match scanQuoted rest with
      | none => none
      | some (a, b) => some (c :: a, b)

/-- One token of the key/value grammar `(".*?"|\w+)`; a quoted token is
returned with its surrounding quotes (the capture group keeps them,
`strip_quotes` removes them later). -/
def scanToken (s : List Char) : Option (List Char × List Char) :=
  match s with
  | [] => none
  | c :: rest =>
    if c = '"' then
      match scanQuoted rest with
      | none => none
      | some (inner, rem) => some ('"' :: (inner ++ ['"']), rem)
    else if isWordChar c then
      some (c :: rest.takeWhile isWordChar, rest.dropWhile isWordChar)
    else none

/-- One attempt of `\s*(".*?"|\w+)\s*:\s*(".*?"|\w+)\s*` (the regex body
after its `(?:^|,)` anchor) at the current position; greedy `\s*` and the
token alternation here are deterministic, so no backtracking is needed. -/
def tryPair (s : List Char) : Option ((List Char × List Char) × List Char) :=
  match scanToken (s.dropWhile isPySpace) with
  | none => none
  | some (k, s2) =>
    match s2.dropWhile isPySpace with
    | [] => none
    | c :: s4 =>
      if c = ':' then
        match scanToken (s4.dropWhile isPySpace) with
        | none => none
        | some (v, s6) => some ((k, v), s6.dropWhile isPySpace)
      else none

/-- `re.findall` scan for the pair regex: at position 0 the `^` branch of
`(?:^|,)` applies; elsewhere a match must consume a comma first; on failure
the scan advances one character.  Fuel is the remaining input length plus
one, which the caller supplies. -/
def scanPairs : Nat → List Char → Bool → List ((List Char) × (List Char))
  | 0, _, _ => []
  | fuel + 1, s, atStart =>
    match (if atStart then tryPair s else none) with
    | some (kv, rest) => kv :: scanPairs fuel rest false
    | none =>
      match s with
      | [] => []
      | c :: rest =>
        if c = ',' then
          match tryPair rest with
          | some (kv, rest2) => kv :: scanPairs fuel rest2 false
          | none => scanPairs fuel rest false
        else scanPairs fuel rest false

/-- All matches of `(?:^|,)\s*(".*?"|\w+)\s*:\s*(".*?"|\w+)\s*` in order. -/
def findPairs (s : List Char) : List ((List Char) × (List Char)) :=
  scanPairs (s.length + 1) s true

/-- `parse_params` from krafscms.py: empty input gives an empty dict,
otherwise the found pairs are stripped of quotes and inserted into a dict
(last occurrence of a key wins). -/
def parse_params (params_string : List Char) : List ((List Char) × (List Char)) :=
  if params_string = [] then []
  else (findPairs params_string).foldl
    (fun d kv => dictInsert d (strip_quotes kv.1) (strip_quotes kv.2)) []

/-- The canonical serialisation named by the round-trip property: the
comma-separated sequence of `key: value` pairs produced from the map
(separator `", "`, no quoting).  Tail segments, prefixed with the
separator. -/
def sepSer : List ((List Char) × (List Char)) → List Char
  | [] => []
  | (k, v) :: rest => chars ", " ++ k ++ chars ": " ++ v ++ sepSer rest

/-- The canonical `key: value` comma-separated serialisation of a map. -/
def serialize_params : List ((List Char) × (List Char)) → List Char
  | [] => []
  | (k, v) :: rest => k ++ chars ": " ++ v ++ sepSer rest

/-- Split a string at the first occurrence of `-->`: the lazy `.*?` of the
config regex (with DOTALL) ends at the first closing delimiter. -/
def splitArrow : List Char → Option (List Char × List Char)
  | [] => none
  | c :: rest =>
    if c = '-' ∧ rest.take 2 = ['-', '>'] then some ([], rest.drop 2)
    else
      match splitArrow rest with
      | none => none
      | some (a, b) => some (c :: a, b)

/-- Strip leading and trailing `\s` characters: the effect of the greedy
`\s*` on both sides of the lazy params group. -/
def pyTrim (s : List Char) : List Char :=
  ((s.dropWhile isPySpace).reverse.dropWhile isPySpace).reverse

/-- The optional group `\s*<!--\s*(?P<params>.*?)\s*-->\n?` of
`extract_config`'s regex, anchored at the start: skip leading whitespace,
require `<!--`, end the interior at the first `-->`, trim the interior,
drop one following newline.  `none` when the shape is absent. -/
def matchConfigBlock (s : List Char) : Option (List Char × List Char) :=
  if (s.dropWhile isPySpace).take 4 = chars "<!--" then
    match splitArrow ((s.dropWhile isPySpace).drop 4) with
    | none => none
    | some (inner, after) =>
      match after with
      | '\n' :: r => some (pyTrim inner, r)
      | r => some (pyTrim inner, r)
  else none

/-- `extract_config` from krafscms.py: the whole regex always matches (both
groups are optional or `.*`), so the function is total — there is no
malformed-input error path.  Without the block, the params group is `None`
(`parse_params(None)` is `{}`) and the content group is the whole input. -/
def extract_config (source : List Char) : (List ((List Char) × (List Char))) × List Char :=
  match matchConfigBlock source with
  | some (ps, content) => (parse_params ps, content)
  | none => ([], source)

/-- Errors of the embedded fallible operations: `KeyError` from a dict or
format lookup, `TypeError` from a duplicate keyword argument, `ValueError`
from a malformed format string. -/
inductive Err where
  | lookupFailure
  | duplicateKeyword
  | keyError
  | valueError
deriving DecidableEq

/-- A parsed piece of a format string: a literal character or a named
placeholder field. -/
inductive Seg where
  | lit (c : Char)
  | field (name : List Char)
deriving DecidableEq

/-- Read a field name up to its closing `}`; `none` on an unterminated
field or a `{` inside the name (Python raises ValueError for both). -/
def readField : List Char → Option (List Char × List Char)
  | [] => none
  | c :: rest =>
    if c = '}' then some ([], rest)
    else if c = '{' then none
    else
      match readField rest with
      | none => none
      | some (a, b) => some (c :: a, b)

/-- Parse a `str.format` template: `{{`/`}}` are literal braces, `{name}`
is a field, a lone `}` is a ValueError.  Fuel is the input length plus one,
supplied by `parseFmt`. -/
def parseFmtGo : Nat → List Char → Except Err (List Seg)
  | 0, _ => .error .valueError
  | _ + 1, [] => .ok []
  | fuel + 1, '{' :: '{' :: rest =>
    match parseFmtGo fuel rest with
    | .error e => .error e
    | .ok segs => .ok (.lit '{' :: segs)
  | fuel + 1, '{' :: rest =>
    match readField rest with
    | none => .error .valueError
    | some (name, rem) =>
      match parseFmtGo fuel rem with
      | .error e => .error e
      | .ok segs => .ok (.field name :: segs)
  | fuel + 1, '}' :: '}' :: rest =>
    match parseFmtGo fuel rest with
    | .error e => .error e
    | .ok segs => .ok (.lit '}' :: segs)
  | _ + 1, '}' :: _ => .error .valueError
  | fuel + 1, c :: rest =>
    match parseFmtGo fuel rest with
    | .error e => .error e
    | .ok segs => .ok (.lit c :: segs)

/-- Parse a format skeleton into segments. -/
def parseFmt (s : List Char) : Except Err (List Seg) :=
  parseFmtGo (s.length + 1) s

/-- Substitute named fields from the keyword map; a field whose key is
absent is a KeyError (never silently blanked). -/
def substSegs (m : List ((List Char) × (List Char))) : List Seg → Except Err (List Char)
  | [] => .ok []
  | .lit c :: rest =>
    match substSegs m rest with
    | .error e => .error e
    | .ok out => .ok (c :: out)
  | .field name :: rest =>
    match lookupA m name with
    | none => .error .keyError
    | some v =>
      match substSegs m rest with
      | .error e => .error e
      | .ok out => .ok (v ++ out)

/-- `skeleton.format(**kwargs)` for named fields. -/
def strFormat (s : List Char) (m : List ((List Char) × (List Char))) : Except Err (List Char) :=
  match parseFmt s with
  | .error e => .error e
  | .ok segs => substSegs m segs

/-- The `Template` class: an HTML skeleton and its default parameters
(`None` defaults are already the empty map, matching
`self._default_params or {}`). -/
structure Template where
  html : List Char
  default_params : List ((List Char) × (List Char))
deriving DecidableEq

/-- `Template.format` from krafscms.py:
`cm = ChainMap(params, defaults)` then `self._html.format(content=content,
**cm)`; if `cm` also binds `content`, the Python call raises TypeError
("multiple values for keyword argument") before formatting. -/
def Template.format (t : Template) (content : List Char)
    (params : List ((List Char) × (List Char))) : Except Err (List Char) :=
  let cm := chainMap params t.default_params
  if containsKey cm (chars "content") then .error .duplicateKeyword
  else strFormat t.html ((chars "content", content) :: cm)

/-- `apply_template` from krafscms.py, with the global `TEMPLATES` passed
explicitly: `TEMPLATES[template_name]` raises KeyError for an unknown name;
the call `format(content=..., root="../" * depth, **config)` raises
TypeError when `config` itself binds `content` or `root`. -/
def apply_template (store : List ((List Char) × Template)) (template_name : List Char)
    (content_html : List Char) (config : List ((List Char) × (List Char)))
    (depth : Nat) : Except Err (List Char) :=
  match lookupA store template_name with
  | none => .error .lookupFailure
  | some t =>
    if containsKey config (chars "content") || containsKey config (chars "root") then
      .error .duplicateKeyword
    else t.format content_html ((chars "root", pyRepeat (chars "../") depth) :: config)

/-- The effective substitution map `apply_template` hands to `str.format`:
`content`, then the ChainMap of (`root` plus the page config) over the
template defaults. -/
def resolvedParams (content_html root_val : List Char)
    (config defaults : List ((List Char) × (List Char))) :
    List ((List Char) × (List Char)) :=
  (chars "content", content_html) :: chainMap ((chars "root", root_val) :: config) defaults

/-- `compile_from_source` from krafscms.py, with the template store and the
external `markdown.markdown` collaborator passed explicitly. -/
def compile_from_source (store : List ((List Char) × Template)) (md : List Char → List Char)
    (source : List Char) (depth : Nat) : Except Err (List Char) :=
  let cb := extract_config source
  apply_template store ((lookupA cb.1 (chars "template")).getD (chars "default"))
    (md cb.2) cb.1 depth

/-- A target path relative to the output root: directory segments and a
filename. -/
structure TPath where
  dirs : List (List Char)
  name : List Char
deriving DecidableEq

/-- A target file's filesystem state: modification time and contents. -/
structure TFile where
  mtime : Nat
  content : List Char
deriving DecidableEq

/-- A regular file under the source root: directory segments of its
relative path, filename, modification time, contents. -/
structure SrcFile where
  dirs : List (List Char)
  name : List Char
  mtime : Nat
  text : List Char
deriving DecidableEq

/-- What the walker did for one visited file. -/
inductive Action where
  | skip
  | compiled
  | copied
deriving DecidableEq

/-- The mirrored output tree as an association list of target files. -/
abbrev TargetFS := List (TPath × TFile)

/-- Split at the first `.`, used on the reversed name by `pySplitName`. -/
def splitAtDot : List Char → Option (List Char × List Char)
  | [] => none
  | c :: rest =>
    if c = '.' then some ([], rest)
    else
      match splitAtDot rest with
      | none => none
      | some (a, b) => some (c :: a, b)

/-- Split a filename at its last dot, following pathlib: `suffix` is
nonempty only when the last dot is neither the first nor the last
character (`.gitignore` and `name.` have no suffix). -/
def pySplitName (name : List Char) : List Char × List Char :=
  match splitAtDot name.reverse with
  | some (pre, post) =>
    if pre = [] ∨ post = [] then (name, [])
    else (post.reverse, '.' :: pre.reverse)
  | none => (name, [])

/-- `PurePath.stem`. -/
def pyStem (name : List Char) : List Char := (pySplitName name).1

/-- `PurePath.suffix`. -/
def pySuffix (name : List Char) : List Char := (pySplitName name).2

/-- `target_is_newer` from krafscms.py: the target exists and its
modification time is at or after the source's. -/
def target_is_newer (fs : TargetFS) (source_mtime : Nat) (target : TPath) : Bool :=
  match lookupA fs target with
  | none => false
  | some t => decide (source_mtime ≤ t.mtime)

/-- The relative target filename the walker derives from a source
filename: `.md` files get `stem + ".html"`, every other file keeps its
name. -/
def targetName (n : List Char) : List Char :=
  if pySuffix n = chars ".md" then pyStem n ++ chars ".html" else n

/-- The full target path of a source file: same directory segments, walker
filename. -/
def outPath (f : SrcFile) : TPath := ⟨f.dirs, targetName f.name⟩

/-- The body of `compile_all_files`' loop for one globbed file: classify
by `suffix`, check freshness, then compile (writing the compiled HTML) or
copy (writing the source bytes); a compile error propagates with no
write.  `now` is the modification time a write stamps on the target. -/
def processFile (store : List ((List Char) × Template)) (md : List Char → List Char)
    (now : Nat) (fs : TargetFS) (f : SrcFile) : Except Err (TargetFS × Action) :=
  if pySuffix f.name = chars ".md" then
    let tpath : TPath := ⟨f.dirs, pyStem f.name ++ chars ".html"⟩
    if target_is_newer fs f.mtime tpath then .ok (fs, .skip)
    else
      match compile_from_source store md f.text f.dirs.length with
      | .error e => .error e
      | .ok html => .ok (dictInsert fs tpath ⟨now, html⟩, .compiled)
  else
    let tpath : TPath := ⟨f.dirs, f.name⟩
    if target_is_newer fs f.mtime tpath then .ok (fs, .skip)
    else .ok (dictInsert fs tpath ⟨now, f.text⟩, .copied)

/-- `compile_all_files` from krafscms.py over a listed source tree:
`source_root.glob("**/*.*")` only yields regular files whose final name
matches `*.*`, i.e. contains a dot — other files are never enumerated; the
`depth` passed to the compiler is the number of parent directory segments.
Returns the final target state and the (file, action) trace of every
visited file; the first compile error aborts the remaining files, as the
uncaught Python exception does. -/
def compile_all_files (store : List ((List Char) × Template)) (md : List Char → List Char)
    (now : Nat) (src : List SrcFile) (fs : TargetFS) :
    Except Err (TargetFS × List (SrcFile × Action)) :=
  match src with
  | [] => .ok (fs, [])
  | f :: rest =>
    if f.name.contains '.' then
      match processFile store md now fs f with
      | .error e => .error e
      | .ok (fs1, a) =>
        match compile_all_files store md now rest fs1 with
        | .error e => .error e
        | .ok (fs2, tr) => .ok (fs2, (f, a) :: tr)
    else compile_all_files store md now rest fs

/-- Fixture: the C6 witness template, defaults a=1 and b=2. -/
def tmplSix : Template :=
  ⟨chars "{a} {b} {c} {root}", [(chars "a", chars "1"), (chars "b", chars "2")]⟩

/-- Fixture: a store holding `tmplSix` as "default". -/
def storeSix : List ((List Char) × Template) := [(chars "default", tmplSix)]

/-- Fixture: page params b=3 and c=4. -/
def cfgSix : List ((List Char) × (List Char)) :=
  [(chars "b", chars "3"), (chars "c", chars "4")]

/-- Fixture: a passthrough asset file at the source root. -/
def cssFile : SrcFile := ⟨[], chars "b.css", 3, chars "y"⟩

/-- Fixture: a document file at the source root. -/
def mdFile : SrcFile := ⟨[], chars "a.md", 3, chars "x"⟩

/-- Fixture: a target state already holding a fresh `a.html`. -/
def freshFS : TargetFS := [(⟨[], chars "a.html"⟩, ⟨5, chars "old"⟩)]

/-- An association list without the key looks up to `none`. -/
theorem lookupA_eq_none_of_not_contains {α β : Type} [DecidableEq α]
    {m : List (α × β)} {k : α} (h : containsKey m k = false) : lookupA m k = none := by
  induction m with
  | nil => rfl
  | cons p rest ih =>
    by_cases hp : p.1 = k
    · simp [containsKey, hp] at h
    · simp only [containsKey, if_neg hp] at h
      simp [lookupA, hp, ih h]

/-- Looking up an untouched key through the in-place update map. -/
theorem lookupA_map_update {α β : Type} [DecidableEq α]
    (m : List (α × β)) (k : α) (v : β) (q : α) (hne : q ≠ k) :
    lookupA (m.map fun p => if p.1 = k then (p.1, v) else p) q = lookupA m q := by
  induction m with
  | nil => rfl
  | cons p rest ih =>
    simp only [List.map_cons]
    by_cases hp : p.1 = k
    · rw [if_pos hp]
      have hpq : ¬ p.1 = q := fun hq2 => hne (hq2.symm.trans hp)
      simp only [lookupA, if_neg hpq, ih]
    · rw [if_neg hp]
      simp only [lookupA, ih]

/-- Looking up the assigned key through the in-place update map. -/
theorem lookupA_map_update_self {α β : Type} [DecidableEq α]
    (m : List (α × β)) (k : α) (v : β) (hc : containsKey m k = true) :
    lookupA (m.map fun p => if p.1 = k then (p.1, v) else p) k = some v := by
  induction m with
  | nil => simp [containsKey] at hc
  | cons p rest ih =>
    by_cases hp : p.1 = k
    · simp [lookupA, hp]
    · simp only [containsKey, if_neg hp] at hc
      simp [lookupA, hp, ih hc]

/-- Appending a fresh binding makes its key look up to its value. -/
theorem lookupA_append_self {α β : Type} [DecidableEq α] :
    ∀ (m : List (α × β)) (k : α) (v : β), containsKey m k = false →
      lookupA (m ++ [(k, v)]) k = some v
  | [], k, v, _ => by simp [lookupA]
  | p :: rest, k, v, hc => by
    by_cases hp : p.1 = k
    · simp [containsKey, hp] at hc
    · simp only [containsKey, if_neg hp] at hc
      simp [lookupA, hp, lookupA_append_self rest k v hc]

/-- Appending a binding leaves every other key's lookup unchanged. -/
theorem lookupA_append_ne {α β : Type} [DecidableEq α] :
    ∀ (m : List (α × β)) (k : α) (v : β) (q : α), q ≠ k →
      lookupA (m ++ [(k, v)]) q = lookupA m q
  | [], k, v, q, hne => by simp [lookupA, if_neg (Ne.symm hne)]
  | p :: rest, k, v, q, hne => by
    by_cases hq : p.1 = q
    · simp [lookupA, hq]
    · simp [lookupA, hq, lookupA_append_ne rest k v q hne]

/-- Dict assignment makes the assigned key look up to the new value. -/
theorem lookupA_dictInsert_self {α β : Type} [DecidableEq α]
    (m : List (α × β)) (k : α) (v : β) : lookupA (dictInsert m k v) k = some v := by
  unfold dictInsert
  cases hc : containsKey m k with
  | true =>
    simp only [hc, if_true]
    exact lookupA_map_update_self m k v hc
  | false =>
    simp only [hc, Bool.false_eq_true, if_false]
    exact lookupA_append_self m k v hc

/-- Dict assignment leaves every other key's lookup unchanged. -/
theorem lookupA_dictInsert_ne {α β : Type} [DecidableEq α]
    (m : List (α × β)) (k : α) (v : β) (q : α) (hne : q ≠ k) :
    lookupA (dictInsert m k v) q = lookupA m q := by
  unfold dictInsert
  cases hc : containsKey m k with
  | true =>
    simp only [hc, if_true]
    exact lookupA_map_update m k v q hne
  | false =>
    simp only [hc, Bool.false_eq_true, if_false]
    exact lookupA_append_ne m k v q hne

/-- Claim C5: rendering with a template name not present in the store
fails with the lookup failure (`TEMPLATES[template_name]` raises KeyError);
it never falls back to another template and never returns a silently
defaulted result. -/
theorem apply_template_unknown_name (store : List ((List Char) × Template))
    (template_name content_html : List Char)
    (config : List ((List Char) × (List Char))) (depth : Nat)
    (h : lookupA store template_name = none) :
    apply_template store template_name content_html config depth =
      .error .lookupFailure := by
  simp [apply_template, h]

/-- Witness for C5 at a concrete input: the empty store. -/
theorem apply_template_unknown_name_witness :
    apply_template [] (chars "special") (chars "x") [] 0 = .error .lookupFailure :=
  apply_template_unknown_name [] (chars "special") (chars "x") [] 0 rfl

/-- Claim C10: whenever the page config binds the key "content", for any
template found in the store and any depth, `apply_template` raises the
duplicate-keyword-argument error instead of producing any HTML. -/
theorem apply_template_content_collision (store : List ((List Char) × Template))
    (template_name content_html : List Char) (t : Template)
    (config : List ((List Char) × (List Char))) (depth : Nat)
    (hs : lookupA store template_name = some t)
    (hc : containsKey config (chars "content") = true) :
    apply_template store template_name content_html config depth =
      .error .duplicateKeyword := by
  simp [apply_template, hs, hc]

/-- Witness for C10 at a concrete input. -/
theorem apply_template_content_collision_witness :
    apply_template storeSix (chars "default") (chars "x")
      [(chars "content", chars "z")] 0 = .error .duplicateKeyword :=
  apply_template_content_collision storeSix (chars "default") (chars "x") tmplSix
    [(chars "content", chars "z")] 0 (by decide) (by decide)

/-- Counterexample to claim C1: a regular file named "README" (no dot in
the name, so the `**/*.*` glob never yields it) is not visited — the build
leaves the target tree empty and records no attempted action, even though
the target is absent and stale. -/
theorem build_misses_dotless_file :
    compile_all_files [] (fun s => s) 5 [⟨[], chars "README", 3, chars "x"⟩] [] =
      .ok ([], []) := by
  rfl

/-- Counterexample to claim C6: with page params binding "root", rendering
does not resolve effective parameters at all — the call raises the
duplicate-keyword-argument TypeError for `root`, instead of the claimed
override by the depth-derived root value. -/
theorem apply_template_root_collision_cex :
    apply_template [(chars "t", (⟨chars "{root}", []⟩ : Template))] (chars "t")
      (chars "x") [(chars "root", chars "y")] 0 = .error .duplicateKeyword := by
  rfl

/-- Counterexample to claim C7: the map a ↦ "b c" has no comma and no colon
in its keys or values, yet parsing its canonical serialisation "a: b c"
yields a ↦ "b" — the bare-word value grammar stops at the space. -/
theorem roundtrip_space_cex :
    parse_params (serialize_params [(chars "a", chars "b c")]) ≠
      [(chars "a", chars "b c")] := by
  decide

/-- Claim C2: for a source/target file pair handled by the walker, if the
target exists with modification time at or after the source's, the file is
skipped — the compiler is not invoked, nothing is copied, and the target
state is returned unchanged. -/
theorem freshness_skip (store : List ((List Char) × Template))
    (md : List Char → List Char) (now : Nat) (fs : TargetFS) (f : SrcFile) (t : TFile)
    (hex : lookupA fs (outPath f) = some t) (hfresh : f.mtime ≤ t.mtime) :
    processFile store md now fs f = .ok (fs, .skip) := by
  have htn : target_is_newer fs f.mtime (outPath f) = true := by
    unfold target_is_newer
    rw [hex]
    exact decide_eq_true hfresh
  unfold processFile
  by_cases hmd : pySuffix f.name = chars ".md"
  · have hp : (⟨f.dirs, pyStem f.name ++ chars ".html"⟩ : TPath) = outPath f := by
      simp [outPath, targetName, hmd]
    simp [hmd, hp, htn]
  · have hp : (⟨f.dirs, f.name⟩ : TPath) = outPath f := by
      simp [outPath, targetName, hmd]
    simp [hmd, hp, htn]

/-- Witness for C2 at a concrete input: `a.md` (mtime 3) against an
existing `a.html` (mtime 5) is skipped and the sentinel target state is
untouched. -/
theorem freshness_skip_witness :
    processFile [] (fun s => s) 9 freshFS mdFile = .ok (freshFS, .skip) :=
  freshness_skip [] (fun s => s) 9 freshFS mdFile ⟨5, chars "old"⟩ (by decide) (by decide)

/-- Claim C3: the output path the walker writes is the deterministic
function `outPath` of the source path — directory segments mirrored, an
`.md` suffix replaced by `.html`, any other filename unchanged: processing
one file leaves every other target path untouched, and a non-skip action
writes exactly at `outPath` of that file. -/
theorem output_path_deterministic (store : List ((List Char) × Template))
    (md : List Char → List Char) (now : Nat) (fs : TargetFS) (f : SrcFile)
    (fs2 : TargetFS) (a : Action)
    (h : processFile store md now fs f = .ok (fs2, a)) :
    (∀ p : TPath, p ≠ outPath f → lookupA fs2 p = lookupA fs p) ∧
    (a ≠ Action.skip → ∃ c, lookupA fs2 (outPath f) = some ⟨now, c⟩) := by
  unfold processFile at h
  by_cases hmd : pySuffix f.name = chars ".md"
  · have hp : (⟨f.dirs, pyStem f.name ++ chars ".html"⟩ : TPath) = outPath f := by
      simp [outPath, targetName, hmd]
    rw [if_pos hmd] at h
    simp only [hp] at h
    by_cases htn : target_is_newer fs f.mtime (outPath f) = true
    · rw [if_pos htn] at h
      simp only [Except.ok.injEq, Prod.mk.injEq] at h
      obtain ⟨h1, h2⟩ := h
      subst h1; subst h2
      exact ⟨fun p _ => rfl, fun hs => absurd rfl hs⟩
    · rw [if_neg htn] at h
      cases hc : compile_from_source store md f.text f.dirs.length with
      | error e => rw [hc] at h; exact Except.noConfusion h
      | ok html =>
        rw [hc] at h
        simp only [Except.ok.injEq, Prod.mk.injEq] at h
        obtain ⟨h1, h2⟩ := h
        subst h1; subst h2
        refine ⟨fun p hne => lookupA_dictInsert_ne fs (outPath f) ⟨now, html⟩ p hne, ?_⟩
        exact fun _ => ⟨html, lookupA_dictInsert_self fs (outPath f) ⟨now, html⟩⟩
  · have hp : (⟨f.dirs, f.name⟩ : TPath) = outPath f := by
      simp [outPath, targetName, hmd]
    rw [if_neg hmd] at h
    simp only [hp] at h
    by_cases htn : target_is_newer fs f.mtime (outPath f) = true
    · rw [if_pos htn] at h
      simp only [Except.ok.injEq, Prod.mk.injEq] at h
      obtain ⟨h1, h2⟩ := h
      subst h1; subst h2
      exact ⟨fun p _ => rfl, fun hs => absurd rfl hs⟩
    · rw [if_neg htn] at h
      simp only [Except.ok.injEq, Prod.mk.injEq] at h
      obtain ⟨h1, h2⟩ := h
      subst h1; subst h2
      refine ⟨fun p hne => lookupA_dictInsert_ne fs (outPath f) ⟨now, f.text⟩ p hne, ?_⟩
      exact fun _ => ⟨f.text, lookupA_dictInsert_self fs (outPath f) ⟨now, f.text⟩⟩

/-- Witness for C3 at a concrete input: copying `b.css` into an empty
target tree writes only at its mirrored path. -/
theorem output_path_deterministic_witness :
    lookupA [((⟨[], chars "b.css"⟩ : TPath), (⟨7, chars "y"⟩ : TFile))]
        (⟨[], chars "zz"⟩ : TPath) =
      lookupA ([] : TargetFS) (⟨[], chars "zz"⟩ : TPath) ∧
    ∃ c, lookupA [((⟨[], chars "b.css"⟩ : TPath), (⟨7, chars "y"⟩ : TFile))]
        (outPath cssFile) = some ⟨7, c⟩ := by
  have h := output_path_deterministic [] (fun s => s) 7 [] cssFile
    [((⟨[], chars "b.css"⟩ : TPath), (⟨7, chars "y"⟩ : TFile))] Action.copied rfl
  exact ⟨h.1 _ (by decide), h.2 (by decide)⟩

/-- Claim C1 (amended): provided the build completes without an error,
every regular file whose name contains a dot is visited — an action (skip,
compile, or copy) is recorded for it.  Files with dot-free names fall
outside the `**/*.*` glob; see the counterexample. -/
theorem build_visits_dotted_files (store : List ((List Char) × Template))
    (md : List Char → List Char) (now : Nat) (src : List SrcFile)
    (fs fs2 : TargetFS) (tr : List (SrcFile × Action))
    (h : compile_all_files store md now src fs = .ok (fs2, tr)) :
    ∀ f ∈ src, f.name.contains '.' = true → ∃ a, (f, a) ∈ tr := by
  induction src generalizing fs fs2 tr with
  | nil => intro f hf; exact absurd hf (List.not_mem_nil f)
  | cons g rest ih =>
    intro f hf hdot
    simp only [compile_all_files] at h
    by_cases hg : g.name.contains '.' = true
    · rw [if_pos hg] at h
      cases hpf : processFile store md now fs g with
      | error e => rw [hpf] at h; exact Except.noConfusion h
      | ok pr =>
        obtain ⟨fs1, a⟩ := pr
        rw [hpf] at h
        dsimp only at h
        cases hrec : compile_all_files store md now rest fs1 with
        | error e => rw [hrec] at h; exact Except.noConfusion h
        | ok pr2 =>
          obtain ⟨fs3, tr3⟩ := pr2
          rw [hrec] at h
          simp only [Except.ok.injEq, Prod.mk.injEq] at h
          obtain ⟨h1, h2⟩ := h
          subst h1; subst h2
          rcases List.mem_cons.mp hf with hfg | hfr
          · exact ⟨a, by simp [hfg]⟩
          · obtain ⟨a2, ha2⟩ := ih fs1 fs3 tr3 hrec f hfr hdot
            exact ⟨a2, by simp [ha2]⟩
    · rw [if_neg hg] at h
      rcases List.mem_cons.mp hf with hfg | hfr
      · exact absurd (hfg ▸ hdot) hg
      · exact ih fs fs2 tr h f hfr hdot

/-- Witness for C1's amended theorem: a one-file tree whose file `b.css`
has a dotted name produces a trace entry. -/
theorem build_visits_dotted_files_witness :
    ∃ a, (cssFile, a) ∈ [(cssFile, Action.copied)] :=
  build_visits_dotted_files [] (fun s => s) 7 [cssFile] []
    [(⟨[], chars "b.css"⟩, ⟨7, chars "y"⟩)] [(cssFile, Action.copied)] rfl
    cssFile (by simp) (by decide)

/-- Counterexample to claim C8: a double-quoted value containing a newline
is not scanned (the pair regex has no DOTALL flag, so its lazy dot cannot
cross the newline), and nothing is parsed — rather than the claimed
preservation of every character other than an unescaped closing quote. -/
theorem quoted_newline_cex :
    parse_params (chars "a: \"b\nc\"") ≠ [(chars "a", chars "b\nc")] := by
  decide

/-- `splitArrow` soundness: a successful split exhibits the first `-->`
occurrence as a decomposition of its input. -/
theorem splitArrow_sound :
    ∀ (s a b : List Char), splitArrow s = some (a, b) → s = a ++ chars "-->" ++ b
  | [], a, b, h => by simp [splitArrow] at h
  | c :: rest, a, b, h => by
    unfold splitArrow at h
    by_cases hc : c = '-' ∧ rest.take 2 = ['-', '>']
    · rw [if_pos hc] at h
      simp only [Option.some.injEq, Prod.mk.injEq] at h
      obtain ⟨h1, h2⟩ := h
      subst h1
      subst h2
      have hr : rest = ['-', '>'] ++ rest.drop 2 := by
        conv_lhs => rw [← List.take_append_drop 2 rest]
        rw [hc.2]
      rw [hc.1]
      conv_lhs => rw [hr]
      rfl
    · rw [if_neg hc] at h
      cases hs : splitArrow rest with
      | none => rw [hs] at h; exact Option.noConfusion h
      | some pr =>
        obtain ⟨a2, b2⟩ := pr
        rw [hs] at h
        simp only [Option.some.injEq, Prod.mk.injEq] at h
        obtain ⟨h1, h2⟩ := h
        subst h1
        subst h2
        have ih := splitArrow_sound rest a2 b2 hs
        rw [ih]
        rfl

/-- `matchConfigBlock` soundness: a successful match exhibits the
comment-wrapper decomposition of the input, with an all-whitespace
prefix. -/
theorem matchConfigBlock_sound (s ps rest : List Char)
    (h : matchConfigBlock s = some (ps, rest)) :
    ∃ w i r, s = w ++ chars "<!--" ++ i ++ chars "-->" ++ r ∧
      w.all isPySpace = true := by
  unfold matchConfigBlock at h
  by_cases h4 : (s.dropWhile isPySpace).take 4 = chars "<!--"
  · rw [if_pos h4] at h
    cases hsp : splitArrow ((s.dropWhile isPySpace).drop 4) with
    | none => rw [hsp] at h; exact Option.noConfusion h
    | some pr =>
      obtain ⟨inner, after⟩ := pr
      refine ⟨s.takeWhile isPySpace, inner, after, ?_, List.all_takeWhile⟩
      have hd : s.dropWhile isPySpace =
          chars "<!--" ++ (inner ++ (chars "-->" ++ after)) := by
        conv_lhs => rw [← List.take_append_drop 4 (s.dropWhile isPySpace)]
        rw [h4, splitArrow_sound _ _ _ hsp]
        simp
      conv_lhs => rw [← List.takeWhile_append_dropWhile isPySpace s]
      rw [hd]
      simp
  · rw [if_neg h4] at h
    exact Option.noConfusion h

/-- Claim C4: an input that does not begin with the comment-wrapper
metadata shape — optional leading whitespace, `<!--`, any interior, `-->` —
is returned whole: the parameter mapping is empty and the body is the
original text.  `extract_config` is total by construction, matching the
absence of any malformed-input error path in the source (its regex matches
every string). -/
theorem extract_config_without_block (source : List Char)
    (h : ∀ w i r, source = w ++ chars "<!--" ++ i ++ chars "-->" ++ r →
      w.all isPySpace = true → False) :
    extract_config source = ([], source) := by
  cases hm : matchConfigBlock source with
  | none => simp [extract_config, hm]
  | some pr =>
    obtain ⟨ps, rest⟩ := pr
    obtain ⟨w, i, r, heq, hw⟩ := matchConfigBlock_sound source ps rest hm
    exact absurd hw (fun hw2 => h w i r heq hw2)

/-- A decomposed comment wrapper forces a `<` character somewhere in the
string; used to discharge the C4 hypothesis on concrete inputs. -/
theorem mem_of_wrapper_decomp (s w i r : List Char)
    (heq : s = w ++ chars "<!--" ++ i ++ chars "-->" ++ r) : '<' ∈ s := by
  subst heq
  simp [chars]

/-- Witness for C4 at a concrete input without a metadata block. -/
theorem extract_config_without_block_witness :
    extract_config (chars "hello") = ([], chars "hello") :=
  extract_config_without_block (chars "hello")
    (fun w i r heq _ =>
      absurd (mem_of_wrapper_decomp (chars "hello") w i r heq) (by decide))

/-- Lookup in a cons association list, with the pair split. -/
theorem lookupA_cons {α β : Type} [DecidableEq α] (a : α) (b : β)
    (rest : List (α × β)) (k : α) :
    lookupA ((a, b) :: rest) k = if a = k then some b else lookupA rest k := rfl

/-- A key that looks up to nothing is not contained. -/
theorem containsKey_false_of_lookupA_none {α β : Type} [DecidableEq α] :
    ∀ (m : List (α × β)) (k : α), lookupA m k = none → containsKey m k = false
  | [], _, _ => rfl
  | p :: rest, k, h => by
    by_cases hp : p.1 = k
    · simp [lookupA, hp] at h
    · simp only [lookupA, if_neg hp] at h
      simp only [containsKey, if_neg hp]
      exact containsKey_false_of_lookupA_none rest k h

/-- Lookup distributes over append when the left part misses the key. -/
theorem lookupA_append_of_none {α β : Type} [DecidableEq α] :
    ∀ (a b : List (α × β)) (k : α), lookupA a k = none →
      lookupA (a ++ b) k = lookupA b k
  | [], _, _, _ => rfl
  | p :: rest, b, k, h => by
    by_cases hp : p.1 = k
    · simp [lookupA, hp] at h
    · simp only [lookupA, if_neg hp] at h
      simp only [List.cons_append, lookupA, if_neg hp]
      exact lookupA_append_of_none rest b k h

/-- Lookup stops at the left part of an append when it hits the key. -/
theorem lookupA_append_of_some {α β : Type} [DecidableEq α] :
    ∀ (a b : List (α × β)) (k : α) (v : β), lookupA a k = some v →
      lookupA (a ++ b) k = some v
  | [], _, _, _, h => Option.noConfusion h
  | p :: rest, b, k, v, h => by
    by_cases hp : p.1 = k
    · simp only [lookupA, if_pos hp] at h
      simp only [List.cons_append, lookupA, if_pos hp]
      exact h
    · simp only [lookupA, if_neg hp] at h
      simp only [List.cons_append, lookupA, if_neg hp]
      exact lookupA_append_of_some rest b k v h

/-- Filtering cannot create a binding for a missing key. -/
theorem lookupA_filter_of_none {α β : Type} [DecidableEq α] (q : α × β → Bool) :
    ∀ (b : List (α × β)) (k : α), lookupA b k = none →
      lookupA (b.filter q) k = none
  | [], _, _ => rfl
  | p :: rest, k, h => by
    by_cases hp : p.1 = k
    · simp [lookupA, hp] at h
    · simp only [lookupA, if_neg hp] at h
      by_cases hq : q p = true
      · simp only [List.filter_cons, hq, if_true, lookupA, if_neg hp]
        exact lookupA_filter_of_none q rest k h
      · simp only [List.filter_cons, hq, Bool.false_eq_true, if_false]
        exact lookupA_filter_of_none q rest k h

/-- The ChainMap filter keeps every binding whose key the front map does
not shadow, so lookups for such keys read the back map directly. -/
theorem lookupA_filter_fresh {α β : Type} [DecidableEq α] (a : List (α × β)) :
    ∀ (b : List (α × β)) (k : α), containsKey a k = false →
      lookupA (b.filter fun p => !containsKey a p.1) k = lookupA b k
  | [], _, _ => rfl
  | p :: rest, k, hk => by
    by_cases hp : p.1 = k
    · have hq : (!containsKey a p.1) = true := by rw [hp, hk]; rfl
      simp only [List.filter_cons, hq, if_true, lookupA, if_pos hp]
    · by_cases hq : (!containsKey a p.1) = true
      · simp only [List.filter_cons, hq, if_true, lookupA, if_neg hp]
        exact lookupA_filter_fresh a rest k hk
      · simp only [List.filter_cons, hq, Bool.false_eq_true, if_false]
        rw [lookupA_filter_fresh a rest k hk]
        simp only [lookupA, if_neg hp]

/-- ChainMap lookup: the front map first, then the back map. -/
theorem lookupA_chainMap {α β : Type} [DecidableEq α]
    (a b : List (α × β)) (k : α) :
    lookupA (chainMap a b) k =
      match lookupA a k with
      | some v => some v
      | none => lookupA b k := by
  unfold chainMap
  cases ha : lookupA a k with
  | some v => exact lookupA_append_of_some a _ k v ha
  | none =>
    rw [lookupA_append_of_none a _ k ha]
    exact lookupA_filter_fresh a b k (containsKey_false_of_lookupA_none a k ha)

/-- Substitution fails with KeyError whenever some referenced field is
absent from the keyword map. -/
theorem substSegs_missing (m : List ((List Char) × (List Char))) (f : List Char) :
    ∀ segs, Seg.field f ∈ segs → lookupA m f = none →
      substSegs m segs = .error .keyError
  | [], hmem, _ => absurd hmem (List.not_mem_nil _)
  | .lit c :: rest, hmem, hnone => by
    have hr : Seg.field f ∈ rest := by
      rcases List.mem_cons.mp hmem with hh | ht
      · exact Seg.noConfusion hh
      · exact ht
    simp only [substSegs, substSegs_missing m f rest hr hnone]
  | .field g :: rest, hmem, hnone => by
    cases hg : lookupA m g with
    | none => simp [substSegs, hg]
    | some v =>
      have hr : Seg.field f ∈ rest := by
        rcases List.mem_cons.mp hmem with hh | ht
        · injection hh with hfg
          rw [hfg] at hnone
          rw [hnone] at hg
          exact Option.noConfusion hg
        · exact ht
      simp only [substSegs, hg, substSegs_missing m f rest hr hnone]

/-- Claim C9: if the skeleton references a placeholder slot whose key is
absent from the resolved effective parameters (not `content`, not a passed
parameter, not a template default), rendering that page fails with an
error that propagates to the caller — the slot is never substituted with
an empty or default value. -/
theorem missing_placeholder_fails (t : Template) (content : List Char)
    (params : List ((List Char) × (List Char))) (segs : List Seg) (f : List Char)
    (hparse : parseFmt t.html = .ok segs) (hmem : Seg.field f ∈ segs)
    (hf : f ≠ chars "content")
    (hp : containsKey params f = false)
    (hd : containsKey t.default_params f = false) :
    ∃ e, Template.format t content params = .error e := by
  simp only [Template.format]
  by_cases hdup : containsKey (chainMap params t.default_params) (chars "content") = true
  · exact ⟨.duplicateKeyword, by simp [hdup]⟩
  · refine ⟨.keyError, ?_⟩
    rw [if_neg hdup]
    unfold strFormat
    rw [hparse]
    apply substSegs_missing _ f segs hmem
    have hcf : ¬ (chars "content" = f) := fun hcf2 => hf hcf2.symm
    simp only [lookupA, if_neg hcf]
    rw [lookupA_chainMap, lookupA_eq_none_of_not_contains hp]
    exact lookupA_eq_none_of_not_contains hd

/-- Witness for C9 at a concrete input: a skeleton referencing a slot
nobody supplies. -/
theorem missing_placeholder_fails_witness :
    ∃ e, Template.format (⟨chars "{missing}", []⟩ : Template) (chars "x") [] =
      .error e :=
  missing_placeholder_fails ⟨chars "{missing}", []⟩ (chars "x") []
    [Seg.field (chars "missing")] (chars "missing") rfl (by simp) (by decide) rfl rfl

/-- Claim C6 (amended): provided the page params bind neither `content`
nor `root` and the template defaults do not bind `content` (any of those
collisions raises the duplicate-keyword error instead — see the
counterexample), rendering substitutes into exactly the resolved map:
`content` to the rendered fragment, `root` to `"../"` repeated `depth`
times (empty at depth 0), and every other key to its page value when the
page binds it, else its template default. -/
theorem apply_template_resolution (store : List ((List Char) × Template))
    (name content_html : List Char) (t : Template)
    (config : List ((List Char) × (List Char))) (depth : Nat)
    (hs : lookupA store name = some t)
    (hc1 : containsKey config (chars "content") = false)
    (hc2 : containsKey config (chars "root") = false)
    (hd1 : containsKey t.default_params (chars "content") = false) :
    apply_template store name content_html config depth =
      strFormat t.html
        (resolvedParams content_html (pyRepeat (chars "../") depth) config
          t.default_params) ∧
    lookupA (resolvedParams content_html (pyRepeat (chars "../") depth) config
        t.default_params) (chars "content") = some content_html ∧
    lookupA (resolvedParams content_html (pyRepeat (chars "../") depth) config
        t.default_params) (chars "root") = some (pyRepeat (chars "../") depth) ∧
    ∀ k, k ≠ chars "content" → k ≠ chars "root" →
      lookupA (resolvedParams content_html (pyRepeat (chars "../") depth) config
          t.default_params) k =
        match lookupA config k with
        | some v => some v
        | none => lookupA t.default_params k := by
  have hroot_ne : ¬ (chars "root" = chars "content") := by decide
  have hcm : lookupA (chainMap ((chars "root", pyRepeat (chars "../") depth) :: config)
      t.default_params) (chars "content") = none := by
    rw [lookupA_chainMap]
    have h1 : lookupA ((chars "root", pyRepeat (chars "../") depth) :: config)
        (chars "content") = none := by
      simp only [lookupA, if_neg hroot_ne]
      exact lookupA_eq_none_of_not_contains hc1
    rw [h1]
    exact lookupA_eq_none_of_not_contains hd1
  refine ⟨?_, ?_, ?_, ?_⟩
  · simp only [apply_template, hs]
    rw [if_neg (by simp [hc1, hc2])]
    simp only [Template.format]
    rw [if_neg (by simp [containsKey_false_of_lookupA_none _ _ hcm])]
    rfl
  · unfold resolvedParams
    rw [lookupA_cons, if_pos rfl]
  · have hcr : ¬ (chars "content" = chars "root") := by decide
    unfold resolvedParams
    rw [lookupA_cons, if_neg hcr, lookupA_chainMap, lookupA_cons, if_pos rfl]
  · intro k hk1 hk2
    have hck : ¬ (chars "content" = k) := fun h2 => hk1 h2.symm
    have hrk : ¬ (chars "root" = k) := fun h2 => hk2 h2.symm
    unfold resolvedParams
    rw [lookupA_cons, if_neg hck, lookupA_chainMap, lookupA_cons, if_neg hrk]
    cases lookupA config k <;> rfl

/-- Witness for C6's amended theorem at the spec's concrete instance:
defaults a=1, b=2; page params b=3, c=4; depth 0. -/
theorem apply_template_resolution_witness :
    apply_template storeSix (chars "default") (chars "X") cfgSix 0 =
      strFormat tmplSix.html
        (resolvedParams (chars "X") (pyRepeat (chars "../") 0) cfgSix
          tmplSix.default_params) ∧
    lookupA (resolvedParams (chars "X") (pyRepeat (chars "../") 0) cfgSix
        tmplSix.default_params) (chars "a") = some (chars "1") ∧
    lookupA (resolvedParams (chars "X") (pyRepeat (chars "../") 0) cfgSix
        tmplSix.default_params) (chars "b") = some (chars "3") ∧
    lookupA (resolvedParams (chars "X") (pyRepeat (chars "../") 0) cfgSix
        tmplSix.default_params) (chars "root") = some [] := by
  have h := apply_template_resolution storeSix (chars "default") (chars "X") tmplSix
    cfgSix 0 (by decide) (by decide) (by decide) (by decide)
  refine ⟨h.1, ?_, ?_, ?_⟩
  · exact (h.2.2.2 (chars "a") (by decide) (by decide)).trans (by decide)
  · exact (h.2.2.2 (chars "b") (by decide) (by decide)).trans (by decide)
  · exact h.2.2.1.trans (by decide)

/-- A word character is not whitespace, not a quote, not a colon, and not
a comma. -/
theorem isWordChar_facts {c : Char} (h : isWordChar c = true) :
    isPySpace c = false ∧ c ≠ '"' ∧ c ≠ ':' ∧ c ≠ ',' := by
  refine ⟨?_, ?_, ?_, ?_⟩
  · cases hs : isPySpace c with
    | false => rfl
    | true =>
      simp only [isPySpace, decide_eq_true_eq] at hs
      rcases hs with h1 | h1 | h1 | h1 | h1 | h1 <;>
        (subst h1; exact absurd h (by decide))
  · intro he; subst he; exact absurd h (by decide)
  · intro he; subst he; exact absurd h (by decide)
  · intro he; subst he; exact absurd h (by decide)

/-- A word token is a nonempty list of word characters. -/
theorem wordTok_head {k : List Char} (hk : wordTok k = true) :
    ∃ c k2, k = c :: k2 ∧ isWordChar c = true ∧ k2.all isWordChar = true := by
  cases k with
  | nil => simp [wordTok] at hk
  | cons c k2 =>
    have h2 : isWordChar c = true ∧ ∀ x ∈ k2, isWordChar x = true := by
      simpa [wordTok] using hk
    exact ⟨c, k2, rfl, h2.1, List.all_eq_true.mpr h2.2⟩

/-- `takeWhile` runs through a fully satisfying prefix. -/
theorem takeWhile_append_all {p : Char → Bool} :
    ∀ (w r : List Char), w.all p = true → (w ++ r).takeWhile p = w ++ r.takeWhile p
  | [], _, _ => rfl
  | c :: w2, r, h => by
    obtain ⟨hc, hw⟩ : p c = true ∧ w2.all p = true := by simpa using h
    show ((c :: (w2 ++ r)).takeWhile p) = c :: (w2 ++ r.takeWhile p)
    rw [List.takeWhile_cons, if_pos hc, takeWhile_append_all w2 r hw]

/-- `dropWhile` runs through a fully satisfying prefix. -/
theorem dropWhile_append_all {p : Char → Bool} :
    ∀ (w r : List Char), w.all p = true → (w ++ r).dropWhile p = r.dropWhile p
  | [], _, _ => rfl
  | c :: w2, r, h => by
    obtain ⟨hc, hw⟩ : p c = true ∧ w2.all p = true := by simpa using h
    show ((c :: (w2 ++ r)).dropWhile p) = r.dropWhile p
    rw [List.dropWhile_cons, if_pos hc, dropWhile_append_all w2 r hw]

/-- A scan stops immediately on an empty list or a failing head. -/
theorem scan_stop_of_head {p : Char → Bool} {r : List Char}
    (hr : r = [] ∨ ∃ c r2, r = c :: r2 ∧ p c = false) :
    r.takeWhile p = [] ∧ r.dropWhile p = r := by
  rcases hr with rfl | ⟨c, r2, rfl, hc⟩
  · exact ⟨rfl, rfl⟩
  · rw [List.takeWhile_cons, List.dropWhile_cons]
    simp [hc]

/-- `strip_quotes` leaves a word token unchanged. -/
theorem strip_quotes_word {k : List Char} (hk : wordTok k = true) :
    strip_quotes k = k := by
  obtain ⟨c, k2, rfl, hc, _⟩ := wordTok_head hk
  unfold strip_quotes
  rw [if_neg]
  intro hand
  have h1 : c = '"' := by simpa using hand.1
  exact (isWordChar_facts hc).2.1 h1

/-- `scanToken` on a word token followed by a non-word remainder. -/
theorem scanToken_word (k r : List Char) (hk : wordTok k = true)
    (hstop : r.takeWhile isWordChar = [] ∧ r.dropWhile isWordChar = r) :
    scanToken (k ++ r) = some (k, r) := by
  obtain ⟨c, k2, rfl, hc, hk2⟩ := wordTok_head hk
  show scanToken (c :: (k2 ++ r)) = some (c :: k2, r)
  simp only [scanToken]
  rw [if_neg (isWordChar_facts hc).2.1, if_pos hc,
    takeWhile_append_all k2 r hk2, dropWhile_append_all k2 r hk2, hstop.1, hstop.2,
    List.append_nil]

/-- `scanQuoted` closes at the appended quote when the interior has no
quote and no newline. -/
theorem scanQuoted_closes :
    ∀ (v : List Char), v.all (fun c => !(c == '"') && !(c == '\n')) = true →
      scanQuoted (v ++ ['"']) = some (v, [])
  | [], _ => by simp [scanQuoted]
  | c :: v2, hv => by
    obtain ⟨hc, hv2⟩ : (!(c == '"') && !(c == '\n')) = true ∧
        v2.all (fun c => !(c == '"') && !(c == '\n')) = true := by simpa using hv
    obtain ⟨hc1, hc2⟩ : ¬ (c = '"') ∧ ¬ (c = '\n') := by
      constructor <;> intro he <;> subst he <;> simp at hc
    show scanQuoted (c :: (v2 ++ ['"'])) = some (c :: v2, [])
    simp only [scanQuoted]
    rw [if_neg hc1, if_neg hc2, scanQuoted_closes v2 hv2]

/-- One regex pair attempt succeeds on whitespace, a word key, a colon, a
space, and a remainder whose token scan succeeds. -/
theorem tryPair_general (s sp k rest2 tokv r : List Char)
    (hs : s = sp ++ (k ++ (':' :: (' ' :: rest2))))
    (hsp : sp.all isPySpace = true) (hk : wordTok k = true)
    (hscan : scanToken rest2 = some (tokv, r))
    (hhead : ∃ c r3, rest2 = c :: r3 ∧ isPySpace c = false)
    (hr : r.dropWhile isPySpace = r) :
    tryPair s = some ((k, tokv), r) := by
  subst hs
  obtain ⟨c, k2, hkc, hck, hk2⟩ := wordTok_head hk
  obtain ⟨c3, r3, h23, hc3⟩ := hhead
  have h1 : ((sp ++ (k ++ (':' :: (' ' :: rest2)))).dropWhile isPySpace)
      = k ++ (':' :: (' ' :: rest2)) := by
    rw [dropWhile_append_all sp _ hsp]
    rw [show k ++ (':' :: (' ' :: rest2)) = c :: (k2 ++ (':' :: (' ' :: rest2))) from by
      rw [hkc]; rfl]
    rw [List.dropWhile_cons, if_neg (by simp [(isWordChar_facts hck).1])]
  unfold tryPair
  rw [h1, scanToken_word k (':' :: (' ' :: rest2)) hk
    (scan_stop_of_head (Or.inr ⟨':', ' ' :: rest2, rfl, by decide⟩))]
  dsimp only
  rw [List.dropWhile_cons, if_neg (by decide : ¬ (isPySpace ':' = true))]
  dsimp only
  rw [if_pos rfl, List.dropWhile_cons, if_pos (by decide : isPySpace ' ' = true),
    h23, List.dropWhile_cons, if_neg (by simp [hc3]), ← h23, hscan]
  dsimp only
  rw [hr]

/-- One pair attempt on a word key, `": "`, and a word value followed by
nothing or a comma-led remainder. -/
theorem tryPair_words (s sp k v r : List Char)
    (hs : s = sp ++ (k ++ (':' :: (' ' :: (v ++ r)))))
    (hsp : sp.all isPySpace = true) (hk : wordTok k = true) (hv : wordTok v = true)
    (hr : r = [] ∨ ∃ r2, r = ',' :: r2) :
    tryPair s = some ((k, v), r) := by
  obtain ⟨cv, v2, hvc, hcv, hv2⟩ := wordTok_head hv
  have hstopr : r.takeWhile isWordChar = [] ∧ r.dropWhile isWordChar = r := by
    rcases hr with rfl | ⟨r2, rfl⟩
    · exact ⟨rfl, rfl⟩
    · exact scan_stop_of_head (Or.inr ⟨',', r2, rfl, by decide⟩)
  have hrsp : r.dropWhile isPySpace = r := by
    rcases hr with rfl | ⟨r2, rfl⟩
    · rfl
    · rw [List.dropWhile_cons, if_neg (by decide : ¬ (isPySpace ',' = true))]
  refine tryPair_general s sp k (v ++ r) v r hs hsp hk ?_ ?_ hrsp
  · exact scanToken_word v r hv hstopr
  · refine ⟨cv, v2 ++ r, ?_, (isWordChar_facts hcv).1⟩
    rw [hvc]
    rfl

/-- One pair attempt on a word key, `": "`, and a double-quoted value free
of quotes and newlines: the raw quoted token is returned whole. -/
theorem tryPair_quoted (s k v : List Char)
    (hs : s = k ++ (':' :: (' ' :: ('"' :: (v ++ ['"'])))))
    (hk : wordTok k = true)
    (hv : v.all (fun c => !(c == '"') && !(c == '\n')) = true) :
    tryPair s = some ((k, '"' :: (v ++ ['"'])), []) := by
  refine tryPair_general s [] k ('"' :: (v ++ ['"'])) ('"' :: (v ++ ['"'])) []
    (by simp [hs]) rfl hk ?_ ⟨'"', v ++ ['"'], rfl, by decide⟩ rfl
  simp [scanToken, scanQuoted_closes v hv]

/-- `sepSer` of a cons, in cons-normal form. -/
theorem sepSer_cons (k v : List Char) (t : List ((List Char) × (List Char))) :
    sepSer ((k, v) :: t) = ',' :: (' ' :: (k ++ (':' :: (' ' :: (v ++ sepSer t))))) := by
  show chars ", " ++ k ++ chars ": " ++ v ++ sepSer t = _
  rw [show chars ", " = [',', ' '] from rfl, show chars ": " = [':', ' '] from rfl]
  simp [List.append_assoc]

/-- `serialize_params` of a cons, in cons-normal form. -/
theorem serialize_cons (k v : List Char) (t : List ((List Char) × (List Char))) :
    serialize_params ((k, v) :: t) = k ++ (':' :: (' ' :: (v ++ sepSer t))) := by
  show k ++ chars ": " ++ v ++ sepSer t = _
  rw [show chars ": " = [':', ' '] from rfl]
  simp [List.append_assoc]

/-- The scan of an empty string finds nothing. -/
theorem scanPairs_nil (fuel : Nat) (atStart : Bool) : scanPairs fuel [] atStart = [] := by
  cases fuel with
  | zero => rfl
  | succ f => cases atStart <;> rfl

/-- A tail serialisation is empty or starts with the comma separator. -/
theorem sepSer_shape (t : List ((List Char) × (List Char))) :
    sepSer t = [] ∨ ∃ r2, sepSer t = ',' :: r2 := by
  cases t with
  | nil => exact Or.inl rfl
  | cons p t2 =>
    obtain ⟨k, v⟩ := p
    exact Or.inr ⟨' ' :: (k ++ (':' :: (' ' :: (v ++ sepSer t2)))), sepSer_cons k v t2⟩

/-- The scan step at a comma anchor. -/
theorem scanPairs_step_comma (f : Nat) (rest r2 : List Char)
    (kv : (List Char) × (List Char)) (htp : tryPair rest = some (kv, r2)) :
    scanPairs (f + 1) (',' :: rest) false = kv :: scanPairs f r2 false := by
  simp [scanPairs, htp]

/-- The scan step at the start anchor. -/
theorem scanPairs_step_start (f : Nat) (s r2 : List Char)
    (kv : (List Char) × (List Char)) (htp : tryPair s = some (kv, r2)) :
    scanPairs (f + 1) s true = kv :: scanPairs f r2 false := by
  simp [scanPairs, htp]

/-- The serialised tail is at least as long as its pair count. -/
theorem sepSer_length :
    ∀ (t : List ((List Char) × (List Char))), t.length ≤ (sepSer t).length
  | [] => Nat.le_refl 0
  | (k, v) :: t => by
    rw [sepSer_cons]
    simp only [List.length_cons, List.length_append]
    have := sepSer_length t
    omega

/-- Scanning the comma-separated tail of a word-token serialisation
recovers exactly its pairs. -/
theorem scanPairs_sepSer :
    ∀ (m : List ((List Char) × (List Char))),
      (∀ p ∈ m, wordTok p.1 = true ∧ wordTok p.2 = true) →
      ∀ fuel, m.length ≤ fuel → scanPairs fuel (sepSer m) false = m
  | [], _, fuel, _ => by
    rw [show sepSer [] = [] from rfl]
    exact scanPairs_nil fuel false
  | (k, v) :: t, h, fuel, hf => by
    obtain ⟨hk, hv⟩ := h (k, v) (List.mem_cons_self _ _)
    have ht : ∀ p ∈ t, wordTok p.1 = true ∧ wordTok p.2 = true :=
      fun p hp => h p (List.mem_cons_of_mem _ hp)
    cases fuel with
    | zero => exact absurd hf (by simp)
    | succ f =>
      rw [sepSer_cons,
        scanPairs_step_comma f _ _ _
          (tryPair_words (' ' :: (k ++ (':' :: (' ' :: (v ++ sepSer t))))) [' ']
            k v (sepSer t) rfl rfl hk hv (sepSer_shape t)),
        scanPairs_sepSer t ht f (by simp at hf; omega)]

/-- `findPairs` recovers the pairs of a word-token serialisation. -/
theorem findPairs_serialize (m : List ((List Char) × (List Char)))
    (h : ∀ p ∈ m, wordTok p.1 = true ∧ wordTok p.2 = true) :
    findPairs (serialize_params m) = m := by
  cases m with
  | nil => rfl
  | cons p t =>
    obtain ⟨k, v⟩ := p
    obtain ⟨hk, hv⟩ := h (k, v) (List.mem_cons_self _ _)
    have ht : ∀ p ∈ t, wordTok p.1 = true ∧ wordTok p.2 = true :=
      fun p hp => h p (List.mem_cons_of_mem _ hp)
    unfold findPairs
    rw [serialize_cons,
      scanPairs_step_start _ _ _ _
        (tryPair_words (k ++ (':' :: (' ' :: (v ++ sepSer t)))) []
          k v (sepSer t) rfl rfl hk hv (sepSer_shape t)),
      scanPairs_sepSer t ht _ ?_]
    simp only [List.length_append, List.length_cons]
    have := sepSer_length t
    omega

/-- Key membership distributes over append. -/
theorem containsKey_append {α β : Type} [DecidableEq α] :
    ∀ (a b : List (α × β)) (k : α),
      containsKey (a ++ b) k = (containsKey a k || containsKey b k)
  | [], _, _ => rfl
  | p :: rest, b, k => by
    by_cases hp : p.1 = k
    · simp only [List.cons_append, containsKey, if_pos hp, Bool.true_or]
    · simp only [List.cons_append, containsKey, if_neg hp]
      exact containsKey_append rest b k

/-- Folding dict inserts of fresh, distinct word pairs appends them in
order. -/
theorem foldl_insert_fresh :
    ∀ (m acc : List ((List Char) × (List Char))),
      (∀ p ∈ m, wordTok p.1 = true ∧ wordTok p.2 = true) →
      (m.map Prod.fst).Nodup →
      (∀ p ∈ m, containsKey acc p.1 = false) →
      m.foldl (fun d kv => dictInsert d (strip_quotes kv.1) (strip_quotes kv.2)) acc
        = acc ++ m
  | [], acc, _, _, _ => by simp
  | (k, v) :: t, acc, hw, hnod, hacc => by
    obtain ⟨hk, hv⟩ := hw (k, v) (List.mem_cons_self _ _)
    have hnod2 : (k :: t.map Prod.fst).Nodup := by simpa using hnod
    have hins : dictInsert acc (strip_quotes k) (strip_quotes v) = acc ++ [(k, v)] := by
      rw [strip_quotes_word hk, strip_quotes_word hv]
      unfold dictInsert
      rw [hacc (k, v) (List.mem_cons_self _ _)]
      simp
    have hacc2 : ∀ p ∈ t, containsKey (acc ++ [(k, v)]) p.1 = false := by
      intro p hp
      rw [containsKey_append]
      have h1 : containsKey acc p.1 = false := hacc p (List.mem_cons_of_mem _ hp)
      have h2 : containsKey [(k, v)] p.1 = false := by
        have hkp : ¬ (k = p.1) :=
          fun he => (List.nodup_cons.mp hnod2).1 (he ▸ List.mem_map_of_mem Prod.fst hp)
        simp [containsKey, hkp]
      rw [h1, h2]
      rfl
    simp only [List.foldl_cons]
    rw [hins, foldl_insert_fresh t (acc ++ [(k, v)])
      (fun p hp => hw p (List.mem_cons_of_mem _ hp)) (List.nodup_cons.mp hnod2).2 hacc2]
    simp

/-- Claim C7 (amended): for a parameter map whose keys and values are all
nonempty word tokens (letters, digits, underscore) with pairwise distinct
keys, the parser round-trips its canonical `key: value` comma-separated
serialisation: `parse(serialize(m)) = m`.  The claim's weaker "no comma,
no colon" precondition is refuted by the counterexample (a value with a
space). -/
theorem parse_serialize_roundtrip (m : List ((List Char) × (List Char)))
    (hw : ∀ p ∈ m, wordTok p.1 = true ∧ wordTok p.2 = true)
    (hnod : (m.map Prod.fst).Nodup) :
    parse_params (serialize_params m) = m := by
  cases m with
  | nil => rfl
  | cons p t =>
    obtain ⟨k, v⟩ := p
    obtain ⟨hk0, _⟩ := hw (k, v) (List.mem_cons_self _ _)
    have hk : wordTok k = true := hk0
    obtain ⟨c, k2, hkc, _, _⟩ := wordTok_head hk
    have hne : serialize_params ((k, v) :: t) ≠ [] := by
      rw [serialize_cons, hkc]
      simp
    unfold parse_params
    rw [if_neg hne, findPairs_serialize _ hw]
    have hfold := foldl_insert_fresh ((k, v) :: t) [] hw hnod (fun p _ => rfl)
    simpa using hfold

/-- Witness for C7's amended theorem on a concrete two-pair map. -/
theorem parse_serialize_roundtrip_witness :
    parse_params (serialize_params [(chars "a", chars "1"), (chars "b", chars "2")]) =
      [(chars "a", chars "1"), (chars "b", chars "2")] :=
  parse_serialize_roundtrip [(chars "a", chars "1"), (chars "b", chars "2")]
    (by decide) (by decide)

/-- Claim C8 (amended): a double-quoted value may contain any characters
other than a double quote or a newline (the scan is non-greedy to the
nearest quote and its dot cannot cross a newline); such a value is stored
with embedded commas and colons preserved and the surrounding quotes
stripped, while a bare word token is stored as-is and can contain neither
comma nor colon. -/
theorem quoted_value_roundtrip (k v : List Char) (hk : wordTok k = true)
    (hv : v.all (fun c => !(c == '"') && !(c == '\n')) = true) :
    parse_params (k ++ (':' :: (' ' :: ('"' :: (v ++ ['"']))))) = [(k, v)] ∧
    (∀ w : List Char, wordTok w = true → ∀ c ∈ w, c ≠ ',' ∧ c ≠ ':') := by
  constructor
  · obtain ⟨c, k2, hkc, hck, _⟩ := wordTok_head hk
    have hne : k ++ (':' :: (' ' :: ('"' :: (v ++ ['"'])))) ≠ [] := by
      rw [hkc]
      simp
    unfold parse_params
    rw [if_neg hne]
    unfold findPairs
    rw [scanPairs_step_start _ _ _ _ (tryPair_quoted _ k v rfl hk hv), scanPairs_nil]
    simp only [List.foldl_cons, List.foldl_nil]
    rw [strip_quotes_word hk]
    have hlast : ('"' :: (v ++ ['"'])).getLast? = some '"' := by
      rw [show ('"' :: (v ++ ['"'])) = ('"' :: v) ++ ['"'] from by simp]
      exact List.getLast?_concat _
    have hsq : strip_quotes ('"' :: (v ++ ['"'])) = v := by
      unfold strip_quotes
      rw [if_pos ⟨rfl, hlast⟩]
      show ((v ++ ['"']).dropLast) = v
      exact List.dropLast_concat
    rw [hsq]
    rfl
  · intro w hw c hc
    have hall : w.all isWordChar = true := by
      unfold wordTok at hw
      rw [Bool.and_eq_true] at hw
      exact hw.2
    have hcw : isWordChar c = true := List.all_eq_true.mp hall c hc
    exact ⟨(isWordChar_facts hcw).2.2.2, (isWordChar_facts hcw).2.2.1⟩

/-- Witness for C8's amended theorem: the quoted value "b,c: d" keeps its
comma and colon and loses its quotes. -/
theorem quoted_value_roundtrip_witness :
    parse_params (chars "a" ++ (':' :: (' ' :: ('"' :: (chars "b,c: d" ++ ['"']))))) =
      [(chars "a", chars "b,c: d")] :=
  (quoted_value_roundtrip (chars "a") (chars "b,c: d") (by decide) (by decide)).1

end Krafscms
